import Mathlib

/-!
Verification of the data-type conversion registry (`ConverterRegistry`,
converter combinators, URL-backed converters and the mimetype graph search)
of the repository, as a shallow embedding in Lean 4.

Conventions of the embedding:
* JS strings are Lean `String`s; the JS string methods used by the source
  (`startsWith`, `slice`) are embedded via the character list of the string.
* A JS `Map<string, V>` is an association list `List (String × V)` in
  insertion order; `Map.set` overwrites the value in place for an existing
  key and appends otherwise, exactly as JS insertion-order semantics demand.
* A JS `Set` is a duplicate-free `List` in insertion order; membership of
  objects is by object identity, which the embedding makes explicit by a
  `ref : Nat` field on object types (two distinct JS objects never compare
  equal, even when all their fields agree).
* A JS `Promise<V>` produced by a transform either resolves or rejects; a
  transform is embedded as a function into `Except ε`.
* An async generator is embedded by the finite list of values it yields
  together with the error that terminates it, if any; a JS `undefined`
  element is `Option.none`.
-/

namespace DataBus

/-! ## JS collection primitives -/

/-- First-match association-list lookup: the behaviour of `Map.get` on a map
represented as its insertion-ordered entry list. -/
def alookup {β : Type} : List (String × β) → String → Option β
  | [], _ => none
  | (k, v) :: rest, t => if k = t then some v else alookup rest t

/-- `Set.add`: append the element unless already present (object identity is
the decidable equality of the element type). -/
def jsAdd {β : Type} [DecidableEq β] (l : List β) (x : β) : List β :=
  if x ∈ l then l else l ++ [x]

/-- `new Set(iterable)`: iterate `add` over the elements. -/
def jsSetOf {β : Type} [DecidableEq β] (l : List β) : List β :=
  l.foldl jsAdd []

/-- `Map.set k v`: overwrite in place when `k` is already a key, append
otherwise. -/
def jsSetEntry {β : Type} (m : List (String × β)) (k : String) (v : β) :
    List (String × β) :=
  if (alookup m k).isSome then
    m.map (fun e => if e.1 = k then (e.1, v) else e)
  else m ++ [(k, v)]

/-- `new Map(entries)`: iterate `set` over the entries. -/
def jsMapOfEntries {β : Type} (es : List (String × β)) : List (String × β) :=
  es.foldl (fun m e => jsSetEntry m e.1 e.2) []

/-! ## Data model -/

/-- A JS `URL` object.  `ref` is the object identity: two `URL` objects with
the same textual content are still different objects in a JS `Set`. -/
structure URL where
  ref : Nat
  protocol : String
  href : String
  deriving DecidableEq, Repr

/-- A dataset: an immutable `(mimeType, url, data)` triple
(`Dataset` from `dataregistry.ts`). -/
structure Dataset (α : Type) where
  mimeType : String
  url : URL
  data : α
  deriving DecidableEq, Repr

/-- A transform: the async data-conversion function of one converter edge.
Rejection of the promise is `Except.error`. -/
abbrev Tf (α ε : Type) := α → Except ε α

/-- `Converter<T, V>`: a function from a mimetype to a `Map` of target
mimetypes to transforms. -/
abbrev Converter (α ε : Type) := String → List (String × Tf α ε)

/-! ## Converter combinators (from the source) -/

/-- `composeConverters a b = mimeType => new Map([...a(mimeType), ...b(mimeType)])`. -/
def composeConverters {α ε : Type} (a b : Converter α ε) : Converter α ε :=
  fun mimeType => jsMapOfEntries (a mimeType ++ b mimeType)

/-- `emptyConverter`: always the empty map. -/
def emptyConverter {α ε : Type} : Converter α ε :=
  fun _ => []

/-- `composeManyConverters converters = [...converters].reduce(composeConverters, emptyConverter)`. -/
def composeManyConverters {α ε : Type} (converters : List (Converter α ε)) :
    Converter α ε :=
  converters.foldl composeConverters emptyConverter

/-- `singleConverter fn`: lift a function returning `null` or a single
`[targetMimeType, transform]` pair into the `Converter` shape. -/
def singleConverter {α ε : Type}
    (fn : String → Option (String × Tf α ε)) : Converter α ε :=
  fun mimeType =>
    match fn mimeType with
    | none => []
    | some possibleResult => jsMapOfEntries [possibleResult]

/-- `seperateConverter {computeMimeType, convert}`. -/
def seperateConverter {α ε : Type}
    (computeMimeType : String → Option String) (convert : Tf α ε) :
    Converter α ε :=
  singleConverter (fun mimeType =>
    match computeMimeType mimeType with
    | none => none
    | some targetMimeType => some (targetMimeType, convert))

/-- `staticConverter {sourceMimeType, targetMimeType, convert}`. -/
def staticConverter {α ε : Type}
    (sourceMimeType targetMimeType : String) (convert : Tf α ε) :
    Converter α ε :=
  seperateConverter
    (fun mimeType =>
      if mimeType = sourceMimeType then some targetMimeType else none)
    convert

/-! ## URL-backed converters (`urls.ts`) -/

/-- JS `s.startsWith(p)`: the characters of `p` are a prefix of those of `s`. -/
def jsStartsWith (s p : String) : Bool :=
  p.data.isPrefixOf s.data

/-- JS `s.slice(n)` for `0 ≤ n`: drop the first `n` characters. -/
def jsSlice (s : String) (n : Nat) : String :=
  String.mk (s.data.drop n)

/-- `const baseMimeType = 'application/x.jupyter.url; mimeType='`. -/
def baseMimeType : String := "application/x.jupyter.url; mimeType="

/-- `URLMimeType(mimeType)`: tag a mimetype with the URL-wrapper prefix. -/
def URLMimeType (mimeType : String) : String :=
  baseMimeType ++ mimeType

/-- `extractURLMimeType(mimeType)`: strip the URL-wrapper prefix, `null` when
the prefix is absent. -/
def extractURLMimeType (mimeType : String) : Option String :=
  if jsStartsWith mimeType baseMimeType then
    some (jsSlice mimeType baseMimeType.length)
  else none

/-- Modelled from the spec: `extractResolveMimeType` is imported from the
package index, which is not in the source tree.  Per the spec (§4.4) it
recognizes a synthetic "resolve" mimetype wrapper; it is modelled with the
same fixed-prefix scheme as `extractURLMimeType`. -/
def resolveBaseMimeType : String := "application/x.jupyter.resolve; mimeType="

/-- Modelled from the spec: prefix-stripping recognizer of the "resolve"
mimetype wrapper (see `resolveBaseMimeType`). -/
def extractResolveMimeType (mimeType : String) : Option String :=
  if jsStartsWith mimeType resolveBaseMimeType then
    some (jsSlice mimeType resolveBaseMimeType.length)
  else none

/-- A JS runtime error: reading a property of `undefined`. -/
inductive JSError : Type
  | typeError
  deriving DecidableEq, Repr

/-- The matcher lambda of `resolverURLConverter`, with the JS runtime value of
its second parameter made explicit.  The source declares the lambda with two
parameters `(mimeType, url)` but hands it to `singleConverter`, which invokes
it with the mimetype only, so at runtime `url` is `undefined` (`none`) and
`url.protocol` throws a `TypeError`.  The transform of the produced edge is
`async () => url`: it ignores its argument and returns the carried URL. -/
def resolverURLFn (mimeType : String) (url : Option URL) :
    Except JSError (Option (String × (Unit → Option URL))) :=
  match extractResolveMimeType mimeType with
  | none => Except.ok none
  | some resMimeType =>
    match url with
    | none => Except.error JSError.typeError
    | some u =>
      let isHTTP := u.protocol = "http:"
      let isHTTPS := u.protocol = "https:"
      if isHTTP ∨ isHTTPS then
        Except.ok (some (URLMimeType resMimeType, fun _ => url))
      else Except.ok none

/-- `resolverURLConverter` as it actually evaluates: `singleConverter`
supplies only the mimetype, so the `url` parameter of the lambda is
`undefined`. -/
def resolverURLConverterResult (mimeType : String) :
    Except JSError (Option (String × (Unit → Option URL))) :=
  resolverURLFn mimeType none

/-! ## Graph reachability engine

Modelled from the spec: `graph.ts` (`reachable`, `expandPath`) is not in the
source tree; only its import and call sites are.  The spec (§4.2) gives the
algorithm: breadth-first traversal in which the frontier starts as the
starting mimetypes (each with an empty path, marked visited), each frontier
node is asked the composed converter for its outgoing edges, each edge to an
unvisited target records `parent path + edge` and joins the next frontier,
until the frontier is empty.  The source loop runs until the frontier
empties; the embedding bounds the number of BFS layers by an explicit `fuel`
argument, and the theorems below hold for every fuel value. -/

/-- One recorded conversion path: the `(fromMimeType, transform)` edges from
some starting mimetype to the node under which the path is recorded. -/
abbrev Path (α ε : Type) := List (String × Tf α ε)

/-- The reachability map: insertion-ordered association list from each
visited mimetype to its recorded path. -/
abbrev ReachMap (α ε : Type) := List (String × Path α ε)

/-- Visit the outgoing edges of one frontier node: each edge whose target is
unvisited records `parent ++ [edge]` and is appended to the next frontier. -/
def visitEdges {α ε : Type} (node : String) (parent : Path α ε) :
    List (String × Tf α ε) → ReachMap α ε → List String →
    ReachMap α ε × List String
  | [], result, next => (result, next)
  | (t, f) :: rest, result, next =>
    if (alookup result t).isSome then
      visitEdges node parent rest result next
    else
      visitEdges node parent rest (result ++ [(t, parent ++ [(node, f)])])
        (next ++ [t])

/-- Process one BFS layer: visit the edges of every frontier node in order,
threading the result map and accumulating the next frontier. -/
def processFrontier {α ε : Type} (conv : Converter α ε) :
    List String → ReachMap α ε → List String → ReachMap α ε × List String
  | [], result, next => (result, next)
  | n :: rest, result, next =>
    match visitEdges n ((alookup result n).getD []) (conv n) result next with
    | (result2, next2) => processFrontier conv rest result2 next2

/-- The BFS loop: repeat layers until the frontier is empty (or the fuel
bound on the number of layers is reached). -/
def bfs {α ε : Type} (conv : Converter α ε) :
    Nat → ReachMap α ε → List String → ReachMap α ε
  | _, result, [] => result
  | 0, result, _ => result
  | fuel + 1, result, frontier =>
    match processFrontier conv frontier result [] with
    | (result2, next) => bfs conv fuel result2 next

/-- `reachable(converter, startingNodes)`: BFS from the (deduplicated)
starting mimetypes, each initially recorded with an empty path. -/
def reachable {α ε : Type} (fuel : Nat) (conv : Converter α ε)
    (mimeTypes : List String) : ReachMap α ε :=
  let starts := jsSetOf mimeTypes
  bfs conv fuel (starts.map (fun m => (m, ([] : Path α ε)))) starts

/-- One entry of an expanded path, as destructured by `convert`:
the synthetic no-op first entry has no initial mimetype and no transform. -/
inductive PathEntry (α ε : Type) : Type
  | src (resultMimeType : String)
  | hop (initialMimeType : String) (transform : Tf α ε)
      (resultMimeType : String)

/-- The hop entries of an expanded path: each edge `(m, f)` becomes
`(m, f, r)` where `r` is the source mimetype of the following edge, and the
final edge results in the target mimetype. -/
def hopEntries {α ε : Type} :
    List (String × Tf α ε) → String → List (PathEntry α ε)
  | [], _ => []
  | [(m, f)], target => [PathEntry.hop m f target]
  | (m, f) :: (m2, f2) :: rest, target =>
    PathEntry.hop m f m2 :: hopEntries ((m2, f2) :: rest) target

/-- The starting mimetype of a recorded path (the target itself for the
empty path). -/
def pathStart {α ε : Type} (target : String) :
    List (String × Tf α ε) → String
  | [] => target
  | (m, _) :: _ => m

/-- Modelled from the spec: `expandPath(targetMimeType, path)` from
`graph.ts` is not in the source tree.  Per the spec (§4.3, steps 3–5) an
absent path expands to nothing, and a present path expands to a synthetic
no-op first entry holding the path's starting mimetype, followed by one hop
entry per edge whose result mimetype chains into the next edge and ends at
the target. -/
def expandPath {α ε : Type} (target : String) :
    Option (List (String × Tf α ε)) → List (PathEntry α ε)
  | none => []
  | some edges => PathEntry.src (pathStart target edges) :: hopEntries edges target

/-- A path of `n` converter edges from some member of `starts` to a node:
the graph-theoretic paths against which the recorded BFS paths are
measured. -/
inductive IsPath {α ε : Type} (conv : Converter α ε) (starts : List String) :
    String → Nat → Prop
  | start {m : String} : m ∈ starts → IsPath conv starts m 0
  | step {m t : String} {n : Nat} (f : Tf α ε) :
      IsPath conv starts m n → (t, f) ∈ conv m → IsPath conv starts t (n + 1)

/-! ## Converter registry -/

/-- A registered converter: the function value (`fn`) with its object
identity (`ref`) made explicit, since the registry's `Set` and the
removal in the disposable compare converters by reference. -/
structure RegConverter (α ε : Type) : Type where
  ref : Nat
  fn : Converter α ε

/-- The registry state: the `Set<Converter>` as an insertion-ordered,
reference-deduplicated list. -/
structure ConverterRegistry (α ε : Type) : Type where
  converters : List (RegConverter α ε)

/-- The kind of a `convertersChanged` notification. -/
inductive ChangeType : Type
  | added
  | removed
  deriving DecidableEq, Repr

/-- One `convertersChanged` notification: the mutated converter and the
mutation kind. -/
structure ChangeEvent (α ε : Type) : Type where
  converter : RegConverter α ε
  type : ChangeType

/-- `register(converter)`: `Set.add` the converter (idempotent; the body has
no failure path) and synchronously emit an `added` notification. -/
def ConverterRegistry.register {α ε : Type} (s : ConverterRegistry α ε)
    (c : RegConverter α ε) : ConverterRegistry α ε × List (ChangeEvent α ε) :=
  (⟨if s.converters.any (fun r => r.ref = c.ref) then s.converters
    else s.converters ++ [c]⟩,
   [⟨c, ChangeType.added⟩])

/-- Disposing the handle returned by `register`: `Set.delete` the converter
and emit a `removed` notification. -/
def ConverterRegistry.disposeRegistration {α ε : Type}
    (s : ConverterRegistry α ε) (c : RegConverter α ε) :
    ConverterRegistry α ε × List (ChangeEvent α ε) :=
  (⟨s.converters.filter (fun r => r.ref ≠ c.ref)⟩,
   [⟨c, ChangeType.removed⟩])

/-- `register(c)` immediately followed by disposing the returned handle,
with the cumulative notification trace. -/
def ConverterRegistry.registerThenDispose {α ε : Type}
    (s : ConverterRegistry α ε) (c : RegConverter α ε) :
    ConverterRegistry α ε × List (ChangeEvent α ε) :=
  match s.register c with
  | (s1, evs1) =>
    match s1.disposeRegistration c with
    | (s2, evs2) => (s2, evs1 ++ evs2)

/-- `_reachable(mimeTypes)`: BFS over the composition of all registered
converters. -/
def ConverterRegistry.reachableFrom {α ε : Type} (fuel : Nat)
    (s : ConverterRegistry α ε) (mimeTypes : List String) : ReachMap α ε :=
  reachable fuel (composeManyConverters (s.converters.map RegConverter.fn))
    mimeTypes

/-- `listTargetMimeTypes(sourceMimeTypes)`: the keys of the reachability
map. -/
def ConverterRegistry.listTargetMimeTypes {α ε : Type} (fuel : Nat)
    (s : ConverterRegistry α ε) (sourceMimeTypes : List String) :
    List String :=
  (s.reachableFrom fuel sourceMimeTypes).map Prod.fst

/-- The error terminating a conversion sequence: the synchronous
inconsistent-source error, or the rejection of some hop's transform. -/
inductive ConvErr (ε : Type) : Type
  | inconsistentSource
  | hop (e : ε)
  deriving DecidableEq, Repr

/-- The observable outcome of the async generator returned by `convert`:
the values yielded before termination (a JS `undefined` element is `none`)
and the error terminating the sequence, if any. -/
structure ConvOut (α ε : Type) : Type where
  yielded : List (Option (Dataset α))
  error : Option (ConvErr ε)
  deriving DecidableEq, Repr

/-- The loop body of `convert` over the expanded path: the no-op first entry
yields the source dataset found by mimetype (JS `undefined` when absent);
a hop entry applies its transform to `datas.get(initialMimeType)`, and on
resolution stores the result under the result mimetype and yields a new
`Dataset`, while a rejection terminates the sequence with that error. -/
def runPath {α ε : Type} [Inhabited α] (source : List (Dataset α))
    (url : URL) :
    List (String × α) → List (PathEntry α ε) → ConvOut α ε
  | _, [] => ⟨[], none⟩
  | datas, PathEntry.src resultMimeType :: rest =>
    match runPath source url datas rest with
    | out =>
      ⟨(source.find? (fun d => d.mimeType = resultMimeType)) :: out.yielded,
       out.error⟩
  | datas, PathEntry.hop initialMimeType f resultMimeType :: rest =>
    match f ((alookup datas initialMimeType).getD default) with
    | Except.error e => ⟨[], some (ConvErr.hop e)⟩
    | Except.ok data =>
      match runPath source url (jsSetEntry datas resultMimeType data) rest with
      | out => ⟨some ⟨resultMimeType, url, data⟩ :: out.yielded, out.error⟩

/-- `convert(sourceDatasets, targetMimeType)`: collect the URLs (a `Set`, by
object identity) and the mimetype-to-data map, fail with the
inconsistent-source error unless exactly one URL was collected, then expand
the recorded path to the target (nothing when the target is unreachable) and
run it. -/
def ConverterRegistry.convert {α ε : Type} [Inhabited α] (fuel : Nat)
    (s : ConverterRegistry α ε) (sourceDatasets : List (Dataset α))
    (targetMimeType : String) : ConvOut α ε :=
  let urls := jsSetOf (sourceDatasets.map Dataset.url)
  let datas := jsMapOfEntries (sourceDatasets.map (fun d => (d.mimeType, d.data)))
  match urls with
  | [url] =>
    runPath sourceDatasets url datas
      (expandPath targetMimeType
        (alookup (s.reachableFrom fuel (datas.map Prod.fst)) targetMimeType))
  | _ => ⟨[], some ConvErr.inconsistentSource⟩

/-! ## Lemmas about the JS collection primitives -/

theorem alookup_append_of_some {β : Type} {l₁ : List (String × β)}
    (l₂ : List (String × β)) {t : String} {v : β}
    (h : alookup l₁ t = some v) : alookup (l₁ ++ l₂) t = some v := by
  induction l₁ with
  | nil => simp [alookup] at h
  | cons e rest ih =>
    rw [List.cons_append, alookup]
    rw [alookup] at h
    by_cases he : e.1 = t
    · simpa [he] using h
    · rw [if_neg he] at h ⊢
      exact ih h

theorem alookup_append_of_none {β : Type} {l₁ : List (String × β)}
    (l₂ : List (String × β)) {t : String}
    (h : alookup l₁ t = none) : alookup (l₁ ++ l₂) t = alookup l₂ t := by
  induction l₁ with
  | nil => simp
  | cons e rest ih =>
    rw [List.cons_append, alookup]
    rw [alookup] at h
    by_cases he : e.1 = t
    · simp [he] at h
    · rw [if_neg he] at h ⊢
      exact ih h

theorem alookup_eq_none_iff {β : Type} {l : List (String × β)} {t : String} :
    alookup l t = none ↔ t ∉ l.map Prod.fst := by
  induction l with
  | nil => simp [alookup]
  | cons e rest ih =>
    rw [alookup]
    by_cases he : e.1 = t
    · simp [he]
    · simp only [if_neg he, List.map_cons, List.mem_cons, ih]
      constructor
      · rintro h (h1 | h2)
        · exact he h1.symm
        · exact h h2
      · intro h h2
        exact h (Or.inr h2)

theorem alookup_isSome_iff {β : Type} {l : List (String × β)} {t : String} :
    (alookup l t).isSome = true ↔ t ∈ l.map Prod.fst := by
  constructor
  · intro h
    by_contra hmem
    rw [alookup_eq_none_iff.mpr hmem] at h
    simp at h
  · intro h
    rw [Option.isSome_iff_ne_none]
    intro hnone
    exact alookup_eq_none_iff.mp hnone h

theorem alookup_mem {β : Type} {l : List (String × β)} {t : String} {v : β}
    (h : alookup l t = some v) : (t, v) ∈ l := by
  induction l with
  | nil => simp [alookup] at h
  | cons e rest ih =>
    rw [alookup] at h
    by_cases he : e.1 = t
    · rw [if_pos he] at h
      have : e = (t, v) := by
        cases e
        cases he
        cases h
        rfl
      rw [this]
      exact List.mem_cons_self _ _
    · rw [if_neg he] at h
      exact List.mem_cons_of_mem _ (ih h)

theorem mem_alookup_of_nodup {β : Type} {l : List (String × β)} {t : String}
    {v : β} (hnd : (l.map Prod.fst).Nodup) (h : (t, v) ∈ l) :
    alookup l t = some v := by
  induction l with
  | nil => simp at h
  | cons e rest ih =>
    rw [List.map_cons, List.nodup_cons] at hnd
    rcases List.mem_cons.mp h with h1 | h2
    · rw [← h1, alookup, if_pos rfl]
    · rw [alookup]
      by_cases he : e.1 = t
      · exfalso
        apply hnd.1
        rw [he]
        exact List.mem_map.mpr ⟨(t, v), h2, rfl⟩
      · rw [if_neg he]
        exact ih hnd.2 h2

theorem alookup_map_const {β : Type} (c : β) (l : List String) (t : String) :
    alookup (l.map (fun m => (m, c))) t =
      if t ∈ l then some c else none := by
  induction l with
  | nil => simp [alookup]
  | cons m rest ih =>
    rw [List.map_cons, alookup]
    by_cases he : m = t
    · simp [he]
    · rw [if_neg he, ih]
      simp [List.mem_cons, Ne.symm he]

theorem mem_jsAdd {β : Type} [DecidableEq β] {l : List β} {x y : β} :
    y ∈ jsAdd l x ↔ y ∈ l ∨ y = x := by
  unfold jsAdd
  by_cases h : x ∈ l
  · rw [if_pos h]
    constructor
    · exact Or.inl
    · rintro (h1 | rfl)
      · exact h1
      · exact h
  · rw [if_neg h]
    simp

theorem nodup_jsAdd {β : Type} [DecidableEq β] {l : List β} (x : β)
    (h : l.Nodup) : (jsAdd l x).Nodup := by
  unfold jsAdd
  by_cases hx : x ∈ l
  · rwa [if_pos hx]
  · rw [if_neg hx]
    simpa [List.nodup_append] using ⟨h, hx⟩

theorem foldl_jsAdd_spec {β : Type} [DecidableEq β] :
    ∀ (l acc : List β), acc.Nodup →
      (l.foldl jsAdd acc).Nodup ∧
      (∀ y, y ∈ l.foldl jsAdd acc ↔ y ∈ acc ∨ y ∈ l) := by
  intro l
  induction l with
  | nil => intro acc h; simpa using h
  | cons x rest ih =>
    intro acc h
    rw [List.foldl_cons]
    obtain ⟨h1, h2⟩ := ih (jsAdd acc x) (nodup_jsAdd x h)
    refine ⟨h1, fun y => ?_⟩
    rw [h2 y, mem_jsAdd]
    simp only [List.mem_cons]
    tauto

theorem mem_jsSetOf {β : Type} [DecidableEq β] {l : List β} {x : β} :
    x ∈ jsSetOf l ↔ x ∈ l := by
  have := (foldl_jsAdd_spec l [] List.nodup_nil).2 x
  unfold jsSetOf
  rw [this]
  simp

theorem nodup_jsSetOf {β : Type} [DecidableEq β] (l : List β) :
    (jsSetOf l).Nodup :=
  (foldl_jsAdd_spec l [] List.nodup_nil).1

theorem jsSetEntry_map_fst_of_none {β : Type} {m : List (String × β)}
    {k : String} (v : β) (h : alookup m k = none) :
    jsSetEntry m k v = m ++ [(k, v)] := by
  unfold jsSetEntry
  rw [h]
  simp

theorem mem_map_fst_jsMapOfEntries {β : Type} {es : List (String × β)}
    {t : String} :
    t ∈ (jsMapOfEntries es).map Prod.fst ↔ t ∈ es.map Prod.fst := by
  suffices h : ∀ (es m : List (String × β)),
      t ∈ (es.foldl (fun m e => jsSetEntry m e.1 e.2) m).map Prod.fst ↔
        t ∈ m.map Prod.fst ∨ t ∈ es.map Prod.fst by
    unfold jsMapOfEntries
    rw [h es []]
    simp
  intro es
  induction es with
  | nil => intro m; simp
  | cons e rest ih =>
    intro m
    rw [List.foldl_cons, ih]
    have hset : t ∈ (jsSetEntry m e.1 e.2).map Prod.fst ↔
        t ∈ m.map Prod.fst ∨ t = e.1 := by
      unfold jsSetEntry
      by_cases hs : (alookup m e.1).isSome = true
      · rw [if_pos hs]
        constructor
        · intro h
          rcases List.mem_map.mp h with ⟨p, hp, hfst⟩
          rcases List.mem_map.mp hp with ⟨q, hq, hqe⟩
          by_cases hq1 : q.1 = e.1
          · right
            rw [← hfst, ← hqe]
            simp [hq1]
          · left
            rw [← hfst, ← hqe, if_neg hq1]
            exact List.mem_map.mpr ⟨q, hq, rfl⟩
        · rintro (h | rfl)
          · rcases List.mem_map.mp h with ⟨q, hq, hqe⟩
            apply List.mem_map.mpr
            refine ⟨if q.1 = e.1 then (q.1, e.2) else q, List.mem_map.mpr ⟨q, hq, rfl⟩, ?_⟩
            by_cases hq1 : q.1 = e.1 <;> simp [hq1, ← hqe]
          · rw [alookup_isSome_iff] at hs
            rcases List.mem_map.mp hs with ⟨q, hq, hqe⟩
            apply List.mem_map.mpr
            refine ⟨(q.1, e.2), List.mem_map.mpr ⟨q, hq, ?_⟩, hqe⟩
            simp [hqe]
      · rw [if_neg hs]
        simp
    rw [hset]
    simp only [List.map_cons, List.mem_cons]
    tauto

/-! ## BFS layer lemmas -/

theorem alookup_append_none_left {β : Type} {l₁ l₂ : List (String × β)}
    {t : String} (h : alookup (l₁ ++ l₂) t = none) : alookup l₁ t = none := by
  rw [alookup_eq_none_iff] at h ⊢
  intro hmem
  apply h
  rw [List.map_append, List.mem_append]
  exact Or.inl hmem

theorem alookup_isSome_append {β : Type} {l₁ : List (String × β)}
    (l₂ : List (String × β)) {t : String}
    (h : (alookup l₁ t).isSome = true) :
    (alookup (l₁ ++ l₂) t).isSome = true := by
  rcases Option.isSome_iff_exists.mp h with ⟨v, hv⟩
  rw [alookup_append_of_some l₂ hv]
  rfl

theorem visitEdges_spec {α ε : Type} (node : String) (parent : Path α ε) :
    ∀ (edges : List (String × Tf α ε)) (result : ReachMap α ε)
      (next : List String),
      (result.map Prod.fst).Nodup →
      ∃ Δ : ReachMap α ε,
        visitEdges node parent edges result next =
          (result ++ Δ, next ++ Δ.map Prod.fst) ∧
        ((result ++ Δ).map Prod.fst).Nodup ∧
        (∀ t p, (t, p) ∈ Δ → alookup result t = none ∧
          ∃ f, (t, f) ∈ edges ∧ p = parent ++ [(node, f)]) ∧
        (∀ t f, (t, f) ∈ edges → (alookup (result ++ Δ) t).isSome = true) := by
  intro edges
  induction edges with
  | nil =>
    intro result next hnd
    refine ⟨[], by simp [visitEdges], by simpa using hnd, by simp, by simp⟩
  | cons e rest ih =>
    intro result next hnd
    obtain ⟨t, f⟩ := e
    rw [visitEdges]
    by_cases hs : (alookup result t).isSome = true
    · rw [if_pos hs]
      obtain ⟨Δ, heq, hnd2, hent, hcov⟩ := ih result next hnd
      refine ⟨Δ, heq, hnd2, ?_, ?_⟩
      · intro t' p' hmem
        obtain ⟨h1, f', hf', hp'⟩ := hent t' p' hmem
        exact ⟨h1, f', List.mem_cons_of_mem _ hf', hp'⟩
      · intro t' f' hmem
        rcases List.mem_cons.mp hmem with h1 | h2
        · have ht : t' = t := congrArg Prod.fst h1
          rw [ht]
          exact alookup_isSome_append Δ hs
        · exact hcov t' f' h2
    · rw [if_neg hs]
      have hnone : alookup result t = none := by
        cases h : alookup result t with
        | none => rfl
        | some v => rw [h] at hs; simp at hs
      have htnot : t ∉ result.map Prod.fst := alookup_eq_none_iff.mp hnone
      have hnd' : ((result ++ [(t, parent ++ [(node, f)])]).map Prod.fst).Nodup := by
        rw [List.map_append, List.map_cons, List.map_nil]
        refine hnd.append (List.nodup_singleton _) ?_
        intro x hx hmem
        rw [List.mem_singleton] at hmem
        subst hmem
        exact htnot hx
      obtain ⟨Δ, heq, hnd2, hent, hcov⟩ :=
        ih (result ++ [(t, parent ++ [(node, f)])]) (next ++ [t]) hnd'
      refine ⟨(t, parent ++ [(node, f)]) :: Δ, ?_, ?_, ?_, ?_⟩
      · rw [heq]
        simp
      · rw [List.append_assoc] at hnd2
        simpa using hnd2
      · intro t' p' hmem
        rcases List.mem_cons.mp hmem with h1 | h2
        · cases h1
          exact ⟨hnone, f, List.mem_cons_self _ _, rfl⟩
        · obtain ⟨h1, f', hf', hp'⟩ := hent t' p' h2
          exact ⟨alookup_append_none_left h1, f',
            List.mem_cons_of_mem _ hf', hp'⟩
      · intro t' f' hmem
        rw [← List.singleton_append, ← List.append_assoc]
        rcases List.mem_cons.mp hmem with h1 | h2
        · have ht : t' = t := congrArg Prod.fst h1
          rw [ht]
          apply alookup_isSome_append
          rw [alookup_append_of_none _ hnone, alookup, if_pos rfl]
          rfl
        · exact hcov t' f' h2

theorem processFrontier_spec {α ε : Type} (conv : Converter α ε) :
    ∀ (frontier : List String) (result : ReachMap α ε) (next : List String),
      (result.map Prod.fst).Nodup →
      (∀ n ∈ frontier, (alookup result n).isSome = true) →
      ∃ Δ : ReachMap α ε,
        processFrontier conv frontier result next =
          (result ++ Δ, next ++ Δ.map Prod.fst) ∧
        ((result ++ Δ).map Prod.fst).Nodup ∧
        (∀ t p, (t, p) ∈ Δ → alookup result t = none ∧
          ∃ n, n ∈ frontier ∧ ∃ f par, (t, f) ∈ conv n ∧
            alookup result n = some par ∧ p = par ++ [(n, f)]) ∧
        (∀ n, n ∈ frontier → ∀ t f, (t, f) ∈ conv n →
          (alookup (result ++ Δ) t).isSome = true) := by
  intro frontier
  induction frontier with
  | nil =>
    intro result next hnd _
    refine ⟨[], by simp [processFrontier], by simpa using hnd, by simp, by simp⟩
  | cons n rest ih =>
    intro result next hnd hfr
    rcases Option.isSome_iff_exists.mp (hfr n (List.mem_cons_self _ _)) with
      ⟨par, hpar⟩
    obtain ⟨Δ₁, heq₁, hnd₁, hent₁, hcov₁⟩ :=
      visitEdges_spec n ((alookup result n).getD []) (conv n) result next hnd
    have hstep : processFrontier conv (n :: rest) result next =
        processFrontier conv rest (result ++ Δ₁) (next ++ Δ₁.map Prod.fst) := by
      rw [processFrontier, heq₁]
    have hfr' : ∀ m ∈ rest, (alookup (result ++ Δ₁) m).isSome = true :=
      fun m hm => alookup_isSome_append Δ₁ (hfr m (List.mem_cons_of_mem _ hm))
    obtain ⟨Δ₂, heq₂, hnd₂, hent₂, hcov₂⟩ :=
      ih (result ++ Δ₁) (next ++ Δ₁.map Prod.fst) hnd₁ hfr'
    refine ⟨Δ₁ ++ Δ₂, ?_, ?_, ?_, ?_⟩
    · rw [hstep, heq₂, List.append_assoc, List.map_append, List.append_assoc]
    · rwa [List.append_assoc] at hnd₂
    · intro t p hmem
      rcases List.mem_append.mp hmem with h1 | h2
      · obtain ⟨hn1, f, hf, hp⟩ := hent₁ t p h1
        rw [hpar] at hp
        exact ⟨hn1, n, List.mem_cons_self _ _, f, par, hf, hpar, by simpa using hp⟩
      · obtain ⟨hn1, m, hm, f, par', hf, hpar', hp⟩ := hent₂ t p h2
        have hm0 : (alookup result m).isSome = true :=
          hfr m (List.mem_cons_of_mem _ hm)
        rcases Option.isSome_iff_exists.mp hm0 with ⟨w, hw⟩
        have hww : alookup (result ++ Δ₁) m = some w := alookup_append_of_some _ hw
        rw [hww] at hpar'
        injection hpar' with hwp
        exact ⟨alookup_append_none_left hn1, m, List.mem_cons_of_mem _ hm,
          f, w, hf, hw, by rw [hp, hwp]⟩
    · intro m hm t f hf
      rcases List.mem_cons.mp hm with h1 | h2
      · rw [← List.append_assoc]
        exact alookup_isSome_append Δ₂ (hcov₁ t f (h1 ▸ hf))
      · rw [← List.append_assoc]
        exact hcov₂ m h2 t f hf

/-! ## The BFS invariant and the shortest-path guarantee -/

/-- The invariant of the BFS loop after `k` fully processed layers: the
recorded paths are genuine paths of minimal length, every node within
distance `k` is recorded, recorded path lengths are bounded by `k`, and the
frontier is exactly the set of nodes recorded at length `k`. -/
structure BfsInv {α ε : Type} (conv : Converter α ε) (starts : List String)
    (k : Nat) (result : ReachMap α ε) (frontier : List String) : Prop where
  nodup : (result.map Prod.fst).Nodup
  sound : ∀ t p, (t, p) ∈ result → IsPath conv starts t p.length
  minimal : ∀ t p, (t, p) ∈ result → ∀ n, IsPath conv starts t n →
    p.length ≤ n
  bound : ∀ t p, (t, p) ∈ result → p.length ≤ k
  complete : ∀ t n, IsPath conv starts t n → n ≤ k →
    (alookup result t).isSome = true
  frontier_sub : ∀ n ∈ frontier, ∃ p, alookup result n = some p ∧
    p.length = k
  frontier_all : ∀ t p, (t, p) ∈ result → p.length = k → t ∈ frontier

theorem bfsInv_base {α ε : Type} (conv : Converter α ε)
    (mimeTypes : List String) :
    BfsInv conv mimeTypes 0
      ((jsSetOf mimeTypes).map (fun m => (m, ([] : Path α ε))))
      (jsSetOf mimeTypes) := by
  have hkeys : (((jsSetOf mimeTypes).map
      (fun m => (m, ([] : Path α ε)))).map Prod.fst) = jsSetOf mimeTypes := by
    rw [List.map_map]
    exact List.map_id _
  have hmem : ∀ {t : String} {p : Path α ε},
      (t, p) ∈ (jsSetOf mimeTypes).map (fun m => (m, ([] : Path α ε))) →
      t ∈ jsSetOf mimeTypes ∧ p = [] := by
    intro t p h
    rcases List.mem_map.mp h with ⟨m, hm, he⟩
    cases he
    exact ⟨hm, rfl⟩
  refine ⟨?_, ?_, ?_, ?_, ?_, ?_, ?_⟩
  · rw [hkeys]
    exact nodup_jsSetOf mimeTypes
  · intro t p h
    obtain ⟨ht, hp⟩ := hmem h
    rw [hp]
    exact IsPath.start (mem_jsSetOf.mp ht)
  · intro t p h n _
    obtain ⟨_, hp⟩ := hmem h
    rw [hp]
    exact Nat.zero_le n
  · intro t p h
    obtain ⟨_, hp⟩ := hmem h
    rw [hp]
    exact Nat.le_refl 0
  · intro t n hpath hn
    interval_cases n
    cases hpath with
    | start hmem2 =>
      rw [alookup_isSome_iff, hkeys]
      exact mem_jsSetOf.mpr hmem2
  · intro n hn
    refine ⟨[], ?_, rfl⟩
    rw [alookup_map_const]
    exact if_pos hn
  · intro t p h _
    exact (hmem h).1

theorem bfsInv_step {α ε : Type} {conv : Converter α ε}
    {starts : List String} {k : Nat} {result : ReachMap α ε}
    {frontier : List String}
    (inv : BfsInv conv starts k result frontier)
    {result2 : ReachMap α ε} {next : List String}
    (hpf : processFrontier conv frontier result [] = (result2, next)) :
    BfsInv conv starts (k + 1) result2 next := by
  obtain ⟨Δ, heq, hnd, hent, hcov⟩ :=
    processFrontier_spec conv frontier result []
      inv.nodup
      (fun n hn => by
        obtain ⟨p, hp, _⟩ := inv.frontier_sub n hn
        rw [hp]
        rfl)
  rw [heq] at hpf
  injection hpf with h1 h2
  subst h1
  subst h2
  have hΔlen : ∀ t p, (t, p) ∈ Δ → p.length = k + 1 ∧
      alookup result t = none := by
    intro t p hmem
    obtain ⟨hn1, n, hn, f, par, _, hpar, hp⟩ := hent t p hmem
    obtain ⟨p', hp', hlen⟩ := inv.frontier_sub n hn
    rw [hpar] at hp'
    injection hp' with hpp
    refine ⟨?_, hn1⟩
    rw [← hpp] at hlen
    rw [hp, List.length_append, hlen]
    rfl
  have hΔnodup : (Δ.map Prod.fst).Nodup := by
    have := hnd
    rw [List.map_append] at this
    exact this.of_append_right
  refine ⟨hnd, ?_, ?_, ?_, ?_, ?_, ?_⟩
  · -- sound
    intro t p hmem
    rcases List.mem_append.mp hmem with h | h
    · exact inv.sound t p h
    · obtain ⟨_, n, hn, f, par, hf, hpar, hp⟩ := hent t p h
      have hpmem : (n, par) ∈ result := alookup_mem hpar
      obtain ⟨p', hp', hlen⟩ := inv.frontier_sub n hn
      rw [hpar] at hp'
      injection hp' with hpp
      have hson : IsPath conv starts n par.length := inv.sound n par hpmem
      have : IsPath conv starts t (par.length + 1) := IsPath.step f hson hf
      have hplen : p.length = par.length + 1 := by
        rw [hp, List.length_append]
        rfl
      rwa [← hplen] at this
  · -- minimal
    intro t p hmem n hpath
    rcases List.mem_append.mp hmem with h | h
    · exact inv.minimal t p h n hpath
    · obtain ⟨hlen, hnone⟩ := hΔlen t p h
      rw [hlen]
      by_contra hlt
      push_neg at hlt
      have hn : n ≤ k := Nat.lt_succ_iff.mp hlt
      have := inv.complete t n hpath hn
      rw [hnone] at this
      simp at this
  · -- bound
    intro t p hmem
    rcases List.mem_append.mp hmem with h | h
    · exact Nat.le_succ_of_le (inv.bound t p h)
    · exact Nat.le_of_eq (hΔlen t p h).1
  · -- complete
    intro t n hpath hn
    rcases Nat.lt_succ_iff_lt_or_eq.mp (Nat.lt_succ_of_le hn) with hlt | heq2
    · have := inv.complete t n hpath (Nat.lt_succ_iff.mp hlt)
      exact alookup_isSome_append Δ this
    · subst heq2
      cases hpath with
      | step f hv hedge =>
        rename_i v
        have hvrec := inv.complete v k hv (Nat.le_refl _)
        rcases Option.isSome_iff_exists.mp hvrec with ⟨pv, hpv⟩
        have hvmem : (v, pv) ∈ result := alookup_mem hpv
        have hvlen : pv.length ≤ k := inv.bound v pv hvmem
        rcases Nat.lt_or_ge pv.length k with hvlt | hvge
        · -- the recorded path of v is shorter than k: t is already within
          -- distance k and therefore already recorded
          have hvp : IsPath conv starts v pv.length := inv.sound v pv hvmem
          have htp : IsPath conv starts t (pv.length + 1) :=
            IsPath.step f hvp hedge
          have := inv.complete t (pv.length + 1) htp hvlt
          exact alookup_isSome_append Δ this
        · have hveq : pv.length = k := Nat.le_antisymm hvlen hvge
          have hvfr : v ∈ frontier := inv.frontier_all v pv hvmem hveq
          exact hcov v hvfr t f hedge
  · -- frontier_sub
    intro t ht
    simp only [List.nil_append] at ht
    rcases List.mem_map.mp ht with ⟨⟨t', p⟩, hmem, hfst⟩
    cases hfst
    obtain ⟨hlen, hnone⟩ := hΔlen t' p hmem
    refine ⟨p, ?_, hlen⟩
    rw [alookup_append_of_none _ hnone]
    exact mem_alookup_of_nodup hΔnodup hmem
  · -- frontier_all
    intro t p hmem hlen
    rcases List.mem_append.mp hmem with h | h
    · exfalso
      have := inv.bound t p h
      rw [hlen] at this
      exact Nat.not_succ_le_self k this
    · simp only [List.nil_append]
      exact List.mem_map.mpr ⟨(t, p), h, rfl⟩

/-- Running `bfs` from any state satisfying the invariant produces a map
whose every entry is a shortest path. -/
theorem bfs_good {α ε : Type} (conv : Converter α ε) (starts : List String) :
    ∀ (fuel : Nat) (k : Nat) (result : ReachMap α ε)
      (frontier : List String),
      BfsInv conv starts k result frontier →
      ∀ t p, (t, p) ∈ bfs conv fuel result frontier →
        IsPath conv starts t p.length ∧
        ∀ n, IsPath conv starts t n → p.length ≤ n := by
  intro fuel
  induction fuel with
  | zero =>
    intro k result frontier inv t p hmem
    have : bfs conv 0 result frontier = result := by
      cases frontier <;> rfl
    rw [this] at hmem
    exact ⟨inv.sound t p hmem, inv.minimal t p hmem⟩
  | succ fuel ih =>
    intro k result frontier inv t p hmem
    cases frontier with
    | nil => exact ⟨inv.sound t p hmem, inv.minimal t p hmem⟩
    | cons n rest =>
      simp only [bfs] at hmem
      rcases hpf : processFrontier conv (n :: rest) result [] with ⟨result2, nx⟩
      rw [hpf] at hmem
      exact ih (k + 1) result2 nx (bfsInv_step inv hpf) t p hmem

/-- `bfs` never disturbs an existing record: it only appends new nodes. -/
theorem bfs_alookup_mono {α ε : Type} (conv : Converter α ε)
    (starts : List String) :
    ∀ (fuel : Nat) (k : Nat) (result : ReachMap α ε)
      (frontier : List String) (t : String) (p : Path α ε),
      BfsInv conv starts k result frontier →
      alookup result t = some p →
      alookup (bfs conv fuel result frontier) t = some p := by
  intro fuel
  induction fuel with
  | zero =>
    intro k result frontier t p _ h
    have : bfs conv 0 result frontier = result := by
      cases frontier <;> rfl
    rw [this]
    exact h
  | succ fuel ih =>
    intro k result frontier t p inv h
    cases frontier with
    | nil => exact h
    | cons n rest =>
      simp only [bfs]
      rcases hpf : processFrontier conv (n :: rest) result [] with ⟨result2, nx⟩
      have inv2 : BfsInv conv starts (k + 1) result2 nx := bfsInv_step inv hpf
      obtain ⟨Δ, heq, _, _, _⟩ :=
        processFrontier_spec conv (n :: rest) result []
          inv.nodup
          (fun m hm => by
            obtain ⟨q, hq, _⟩ := inv.frontier_sub m hm
            rw [hq]
            rfl)
      rw [hpf] at heq
      injection heq with ha hb
      refine ih (k + 1) result2 nx t p inv2 ?_
      rw [ha]
      exact alookup_append_of_some Δ h

/-- Every path recorded by `reachable` is a genuine converter path of
minimal hop count among all paths from the starting mimetypes. -/
theorem reachable_shortest {α ε : Type} (fuel : Nat) (conv : Converter α ε)
    (mimeTypes : List String) (t : String) (p : Path α ε)
    (h : alookup (reachable fuel conv mimeTypes) t = some p) :
    IsPath conv mimeTypes t p.length ∧
      ∀ n, IsPath conv mimeTypes t n → p.length ≤ n :=
  bfs_good conv mimeTypes fuel 0 _ _ (bfsInv_base conv mimeTypes) t p
    (alookup_mem h)

/-- A mimetype with no converter path from the starting mimetypes is absent
from the reachability map. -/
theorem reachable_of_unreachable {α ε : Type} (fuel : Nat)
    (conv : Converter α ε) (mimeTypes : List String) (t : String)
    (h : ¬ ∃ n, IsPath conv mimeTypes t n) :
    alookup (reachable fuel conv mimeTypes) t = none := by
  cases hl : alookup (reachable fuel conv mimeTypes) t with
  | none => rfl
  | some p =>
    exact absurd ⟨p.length, (reachable_shortest fuel conv mimeTypes t p hl).1⟩ h

/-- A starting mimetype is recorded with the empty path. -/
theorem reachable_start {α ε : Type} (fuel : Nat) (conv : Converter α ε)
    (mimeTypes : List String) (t : String) (h : t ∈ mimeTypes) :
    alookup (reachable fuel conv mimeTypes) t = some [] := by
  refine bfs_alookup_mono conv mimeTypes fuel 0 _ _ t []
    (bfsInv_base conv mimeTypes) ?_
  rw [alookup_map_const]
  exact if_pos (mem_jsSetOf.mpr h)

/-! ## Lemmas about `convert` -/

/-- When the input datasets carry exactly one URL, `convert` runs the
expanded path to the target. -/
theorem convert_single_url {α ε : Type} [Inhabited α] (fuel : Nat)
    (s : ConverterRegistry α ε) (ds : List (Dataset α)) (target : String)
    (url : URL) (hurls : jsSetOf (ds.map Dataset.url) = [url]) :
    s.convert fuel ds target =
      runPath ds url (jsMapOfEntries (ds.map (fun d => (d.mimeType, d.data))))
        (expandPath target
          (alookup (s.reachableFrom fuel
            ((jsMapOfEntries (ds.map (fun d => (d.mimeType, d.data)))).map
              Prod.fst)) target)) := by
  simp only [ConverterRegistry.convert]
  rw [hurls]

/-- When the collected URL set does not have exactly one element, `convert`
produces nothing and raises the inconsistent-source error. -/
theorem convert_not_single_url {α ε : Type} [Inhabited α] (fuel : Nat)
    (s : ConverterRegistry α ε) (ds : List (Dataset α)) (target : String)
    (h : (jsSetOf (ds.map Dataset.url)).length ≠ 1) :
    s.convert fuel ds target = ⟨[], some ConvErr.inconsistentSource⟩ := by
  simp only [ConverterRegistry.convert]
  rcases hu : jsSetOf (ds.map Dataset.url) with _ | ⟨u, _ | ⟨v, rest⟩⟩
  · rfl
  · exact absurd (by rw [hu]; rfl) h
  · rfl

/-- `runPath` never produces the inconsistent-source error: its only errors
are transform rejections. -/
theorem runPath_error_ne_inconsistent {α ε : Type} [Inhabited α]
    (source : List (Dataset α)) (url : URL) :
    ∀ (entries : List (PathEntry α ε)) (datas : List (String × α)),
      (runPath source url datas entries).error ≠
        some ConvErr.inconsistentSource := by
  intro entries
  induction entries with
  | nil => intro datas h; simp [runPath] at h
  | cons entry rest ih =>
    intro datas h
    cases entry with
    | src rm =>
      rw [runPath] at h
      exact ih datas h
    | hop im f rm =>
      rw [runPath] at h
      cases hf : f ((alookup datas im).getD default) with
      | error e => rw [hf] at h; cases h
      | ok v => rw [hf] at h; exact ih _ h

/-- The data map accumulated by `runPath` after processing a list of
entries (transform rejections leave the map unchanged, which is irrelevant
under an error-free prefix). -/
def datasAfter {α ε : Type} [Inhabited α] :
    List (String × α) → List (PathEntry α ε) → List (String × α)
  | datas, [] => datas
  | datas, PathEntry.src _ :: rest => datasAfter datas rest
  | datas, PathEntry.hop im f rm :: rest =>
    match f ((alookup datas im).getD default) with
    | Except.error _ => datasAfter datas rest
    | Except.ok v => datasAfter (jsSetEntry datas rm v) rest

theorem runPath_src_cons {α ε : Type} [Inhabited α]
    (source : List (Dataset α)) (url : URL) (datas : List (String × α))
    (m : String) (rest : List (PathEntry α ε)) :
    runPath source url datas (PathEntry.src m :: rest) =
      ⟨(source.find? (fun d => d.mimeType = m)) ::
        (runPath source url datas rest).yielded,
       (runPath source url datas rest).error⟩ := rfl

theorem runPath_hop_ok {α ε : Type} [Inhabited α]
    (source : List (Dataset α)) (url : URL) {datas : List (String × α)}
    {im : String} {f : Tf α ε} (rm : String) {v : α}
    (rest : List (PathEntry α ε))
    (hf : f ((alookup datas im).getD default) = Except.ok v) :
    runPath source url datas (PathEntry.hop im f rm :: rest) =
      ⟨some ⟨rm, url, v⟩ ::
        (runPath source url (jsSetEntry datas rm v) rest).yielded,
       (runPath source url (jsSetEntry datas rm v) rest).error⟩ := by
  rw [runPath, hf]

theorem runPath_hop_error {α ε : Type} [Inhabited α]
    (source : List (Dataset α)) (url : URL) {datas : List (String × α)}
    {im : String} {f : Tf α ε} (rm : String) {e : ε}
    (rest : List (PathEntry α ε))
    (hf : f ((alookup datas im).getD default) = Except.error e) :
    runPath source url datas (PathEntry.hop im f rm :: rest) =
      ⟨[], some (ConvErr.hop e)⟩ := by
  rw [runPath, hf]

/-- Failure semantics of the pipeline: if the prefix of the path before some
hop runs without error and that hop's transform rejects, the whole run
yields exactly the prefix's yields and fails with that hop's error, whatever
entries follow the failing hop. -/
theorem runPath_fail_at {α ε : Type} [Inhabited α]
    (source : List (Dataset α)) (url : URL) :
    ∀ (pre : List (PathEntry α ε)) (datas : List (String × α))
      (im : String) (f : Tf α ε) (rm : String)
      (post : List (PathEntry α ε)) (e : ε),
      (runPath source url datas pre).error = none →
      f ((alookup (datasAfter datas pre) im).getD default) = Except.error e →
      runPath source url datas (pre ++ PathEntry.hop im f rm :: post) =
        ⟨(runPath source url datas pre).yielded, some (ConvErr.hop e)⟩ := by
  intro pre
  induction pre with
  | nil =>
    intro datas im f rm post e _ hf
    rw [datasAfter] at hf
    rw [List.nil_append, runPath_hop_error source url rm post hf]
    rfl
  | cons entry rest ih =>
    intro datas im f rm post e hpre hf
    cases entry with
    | src m =>
      have hpre2 : (runPath source url datas rest).error = none := hpre
      have hf2 : f ((alookup (datasAfter datas rest) im).getD default) =
          Except.error e := by
        rw [datasAfter] at hf
        exact hf
      rw [List.cons_append, runPath_src_cons, runPath_src_cons,
        ih datas im f rm post e hpre2 hf2]
    | hop im' f' rm' =>
      cases hf' : f' ((alookup datas im').getD default) with
      | error e' =>
        rw [runPath_hop_error source url rm' rest hf'] at hpre
        simp at hpre
      | ok v =>
        have hpre2 : (runPath source url (jsSetEntry datas rm' v) rest).error =
            none := by
          rw [runPath_hop_ok source url rm' rest hf'] at hpre
          exact hpre
        have hf2 : f ((alookup
            (datasAfter (jsSetEntry datas rm' v) rest) im).getD default) =
            Except.error e := by
          rw [datasAfter, hf'] at hf
          exact hf
        rw [List.cons_append, runPath_hop_ok source url rm' _ hf',
          runPath_hop_ok source url rm' rest hf',
          ih (jsSetEntry datas rm' v) im f rm post e hpre2 hf2]

/-! ## Auxiliary lemmas for the claims -/

theorem expandPath_some_nil {α ε : Type} (target : String) :
    expandPath target (some ([] : List (String × Tf α ε))) =
      [PathEntry.src target] := rfl

/-- Inversion for `IsPath`: a reached node is a starting node or the target
of some converter edge. -/
theorem isPath_cases {α ε : Type} {conv : Converter α ε}
    {starts : List String} {t : String} {n : Nat}
    (h : IsPath conv starts t n) :
    t ∈ starts ∨ ∃ m f, (t, f) ∈ conv m := by
  cases h with
  | start hm => exact Or.inl hm
  | step f hp hedge => exact Or.inr ⟨_, f, hedge⟩

/-- `IsPath` only depends on the membership of the starting set. -/
theorem isPath_congr_starts {α ε : Type} (conv : Converter α ε)
    {S₁ S₂ : List String} (h : ∀ m, m ∈ S₁ → m ∈ S₂) {t : String} {n : Nat}
    (hp : IsPath conv S₁ t n) : IsPath conv S₂ t n := by
  induction hp with
  | start hm => exact IsPath.start (h _ hm)
  | step f hp hedge ih => exact IsPath.step f ih hedge

/-- An edge of a fold of `composeConverters` comes from the accumulator or
from one of the folded converters. -/
theorem mem_foldl_composeConverters {α ε : Type} :
    ∀ (cs : List (Converter α ε)) (acc : Converter α ε) (m t : String)
      (f : Tf α ε),
      (t, f) ∈ (cs.foldl composeConverters acc) m →
      t ∈ (acc m).map Prod.fst ∨ ∃ c ∈ cs, t ∈ (c m).map Prod.fst := by
  intro cs
  induction cs with
  | nil =>
    intro acc m t f h
    exact Or.inl (List.mem_map.mpr ⟨(t, f), h, rfl⟩)
  | cons c rest ih =>
    intro acc m t f h
    rw [List.foldl_cons] at h
    rcases ih (composeConverters acc c) m t f h with h1 | ⟨c', hc', ht⟩
    · unfold composeConverters at h1
      rw [mem_map_fst_jsMapOfEntries, List.map_append, List.mem_append] at h1
      rcases h1 with h1 | h1
      · exact Or.inl h1
      · exact Or.inr ⟨c, List.mem_cons_self _ _, h1⟩
    · exact Or.inr ⟨c', List.mem_cons_of_mem _ hc', ht⟩

/-- A `staticConverter` only ever produces its fixed target mimetype. -/
theorem mem_map_fst_staticConverter {α ε : Type} {sm tm : String}
    {c : Tf α ε} {m t : String}
    (h : t ∈ ((staticConverter sm tm c) m).map Prod.fst) : t = tm := by
  unfold staticConverter seperateConverter singleConverter at h
  by_cases hm : m = sm
  · simp [hm, jsMapOfEntries, jsSetEntry, alookup] at h
    exact h
  · simp [hm] at h

/-! ## Concrete instances -/

namespace Ex

def tfAB : Tf String String := fun d => Except.ok (d ++ "+AB")

def tfBC : Tf String String := fun d => Except.ok (d ++ "+BC")

def tfAC : Tf String String := fun d => Except.ok (d ++ "+AC")

def tfBCfail : Tf String String := fun _ => Except.error "boom"

def tfCD : Tf String String := fun d => Except.ok (d ++ "+CD")

def tfFail0 : Tf String String := fun _ => Except.error "e0"

def regAB : RegConverter String String :=
  ⟨1, staticConverter "mime/A" "mime/B" tfAB⟩

def regBC : RegConverter String String :=
  ⟨2, staticConverter "mime/B" "mime/C" tfBC⟩

def regAC : RegConverter String String :=
  ⟨3, staticConverter "mime/A" "mime/C" tfAC⟩

def regBCfail : RegConverter String String :=
  ⟨2, staticConverter "mime/B" "mime/C" tfBCfail⟩

def regCD : RegConverter String String :=
  ⟨4, staticConverter "mime/C" "mime/D" tfCD⟩

def urlA : URL := ⟨0, "http:", "http://example.test/a"⟩

def urlB : URL := ⟨1, "http:", "http://example.test/b"⟩

/-- A second URL object with the same textual content as `urlA` but a
different object identity. -/
def urlAcopy : URL := ⟨9, "http:", "http://example.test/a"⟩

def dsA : Dataset String := ⟨"mime/A", urlA, "dataA"⟩

/-- The dataset produced by the first hop of the failing chain. -/
def dsB : Dataset String := ⟨"mime/B", urlA, "dataA+AB"⟩

def dsOther : Dataset String := ⟨"mime/X", urlB, "dataX"⟩

def dsAcopy : Dataset String := ⟨"mime/Z", urlAcopy, "dataZ"⟩

/-- Registry with converters A→B, B→C and a direct A→C. -/
def regy1 : ConverterRegistry String String := ⟨[regAB, regBC, regAC]⟩

/-- Registry with chain A→B, B→C (failing), C→D. -/
def regy2 : ConverterRegistry String String := ⟨[regAB, regBCfail, regCD]⟩

end Ex

/-! ## The claims -/

/-- Claim C1: for every fixed converter registration order, the conversion path
computed for a reachable target mimetype has the fewest hops among all
converter paths from the source mimetypes; in particular, with converters
A→B, B→C and A→C registered, converting a dataset of mimetype A to target C
yields the 2-element sequence of the source A dataset followed by the C
dataset produced by the direct edge. -/
theorem claim1 :
    (∀ (α ε : Type) (fuel : Nat) (conv : Converter α ε)
        (mimeTypes : List String) (t : String) (p : Path α ε),
      alookup (reachable fuel conv mimeTypes) t = some p →
      IsPath conv mimeTypes t p.length ∧
        ∀ n, IsPath conv mimeTypes t n → p.length ≤ n) ∧
    Ex.regy1.convert 4 [Ex.dsA] "mime/C" =
      ⟨[some Ex.dsA, some ⟨"mime/C", Ex.urlA, "dataA+AC"⟩], none⟩ :=
  ⟨fun _ _ fuel conv mimeTypes t p h =>
    reachable_shortest fuel conv mimeTypes t p h, by decide⟩

theorem claim1_witness :
    IsPath (composeManyConverters (Ex.regy1.converters.map RegConverter.fn))
      ["mime/A"] "mime/C" 1 := by
  have h := (claim1.1 String String 4
    (composeManyConverters (Ex.regy1.converters.map RegConverter.fn))
    ["mime/A"] "mime/C" [("mime/A", Ex.tfAC)] rfl).1
  simpa using h

/-- Claim C3: whenever the input datasets of `convert` reference more than one URL
(by object identity), the inconsistent-source error is raised before any
output is produced, whatever the registered converters and target are (so no
transform executes). -/
theorem claim3 : ∀ (α ε : Type) (inst : Inhabited α) (fuel : Nat)
    (s : ConverterRegistry α ε) (ds : List (Dataset α)) (target : String),
    2 ≤ (jsSetOf (ds.map Dataset.url)).length →
    @ConverterRegistry.convert α ε inst fuel s ds target =
      ⟨[], some ConvErr.inconsistentSource⟩ := by
  intro α ε inst fuel s ds target h
  exact convert_not_single_url fuel s ds target (by omega)

theorem claim3_witness :
    2 ≤ (jsSetOf ([Ex.dsA, Ex.dsOther].map Dataset.url)).length ∧
    Ex.regy1.convert 4 [Ex.dsA, Ex.dsOther] "mime/C" =
      ⟨[], some ConvErr.inconsistentSource⟩ :=
  ⟨by decide, claim3 String String inferInstance 4 Ex.regy1
    [Ex.dsA, Ex.dsOther] "mime/C" (by decide)⟩

/-- Claim C6: evaluation of `register` at the failing input of the claim.
Registering a converter that is already present (same reference) does not
fail: the body of `register` has no failure path, so the set is left
unchanged (idempotent `Set.add`) and another `added` notification is
emitted, although the method's own documentation promises an error for a
duplicate registration. -/
theorem claim6 :
    (ConverterRegistry.register
      (⟨[Ex.regAB]⟩ : ConverterRegistry String String) Ex.regAB).1.converters
        = [Ex.regAB] ∧
    (ConverterRegistry.register
      (⟨[Ex.regAB]⟩ : ConverterRegistry String String) Ex.regAB).2 =
        [⟨Ex.regAB, ChangeType.added⟩] :=
  ⟨rfl, rfl⟩

/-- Claim C7: wrapping a mimetype with the URL-wrapper prefix and extracting it is
the identity; `extractURLMimeType` returns `null` exactly when its input
does not start with the fixed prefix (`baseMimeType`), as on
`"text/plain"`. -/
theorem claim7 :
    (∀ m : String, extractURLMimeType (URLMimeType m) = some m) ∧
    (∀ s : String, extractURLMimeType s = none ↔
      ¬ jsStartsWith s baseMimeType = true) ∧
    extractURLMimeType "text/plain" = none := by
  refine ⟨?_, ?_, by decide⟩
  · intro m
    have hpre : jsStartsWith (URLMimeType m) baseMimeType = true := by
      unfold jsStartsWith URLMimeType
      rw [String.data_append]
      simp
    unfold extractURLMimeType
    rw [if_pos hpre]
    unfold jsSlice URLMimeType
    rw [String.data_append, List.drop_left'
      (show baseMimeType.data.length = baseMimeType.length from rfl)]
  · intro s
    unfold extractURLMimeType
    by_cases h : jsStartsWith s baseMimeType = true
    · rw [if_pos h]
      simp [h]
    · rw [if_neg h]
      simp [h]

theorem claim7_witness :
    extractURLMimeType (URLMimeType "text/csv") = some "text/csv" ∧
    extractURLMimeType "application/json" = none :=
  ⟨claim7.1 "text/csv", (claim7.2.1 "application/json").mpr (by decide)⟩

/-- Claim C4: when some input dataset already has the target mimetype (and the
inputs share one URL), `convert` yields a one-element sequence whose sole
element is that original dataset, for every registry — so no registered
converter's transform is invoked. -/
theorem claim4 : ∀ (α ε : Type) (inst : Inhabited α) (fuel : Nat)
    (s : ConverterRegistry α ε) (ds : List (Dataset α)) (target : String)
    (url : URL) (d : Dataset α),
    jsSetOf (ds.map Dataset.url) = [url] →
    ds.find? (fun x => x.mimeType = target) = some d →
    @ConverterRegistry.convert α ε inst fuel s ds target = ⟨[some d], none⟩ := by
  intro α ε inst fuel s ds target url d hurls hfind
  have hmemds : d ∈ ds := List.mem_of_find?_eq_some hfind
  have hmime : d.mimeType = target := by
    have := List.find?_some hfind
    simpa using this
  have htarget : target ∈ ((jsMapOfEntries
      (ds.map (fun x => (x.mimeType, x.data)))).map Prod.fst) := by
    rw [mem_map_fst_jsMapOfEntries, List.map_map]
    exact List.mem_map.mpr ⟨d, hmemds, hmime⟩
  have halook : alookup (s.reachableFrom fuel ((jsMapOfEntries
      (ds.map (fun x => (x.mimeType, x.data)))).map Prod.fst)) target =
      some [] :=
    reachable_start fuel _ _ target htarget
  rw [convert_single_url fuel s ds target url hurls, halook,
    expandPath_some_nil, runPath_src_cons, hfind]
  rfl

theorem claim4_witness :
    Ex.regy1.convert 4 [Ex.dsA] "mime/A" = ⟨[some Ex.dsA], none⟩ :=
  claim4 String String inferInstance 4 Ex.regy1 [Ex.dsA] "mime/A" Ex.urlA
    Ex.dsA (by decide) (by decide)

/-- Claim C5: when the input datasets share one URL and the target mimetype is not
reachable from their mimetypes through the registered converters, `convert`
yields the empty sequence and no error. -/
theorem claim5 : ∀ (α ε : Type) (inst : Inhabited α) (fuel : Nat)
    (s : ConverterRegistry α ε) (ds : List (Dataset α)) (target : String)
    (url : URL),
    jsSetOf (ds.map Dataset.url) = [url] →
    (¬ ∃ n, IsPath (composeManyConverters (s.converters.map RegConverter.fn))
      (ds.map Dataset.mimeType) target n) →
    @ConverterRegistry.convert α ε inst fuel s ds target = ⟨[], none⟩ := by
  intro α ε inst fuel s ds target url hurls hnr
  have hkeys : ∀ m, m ∈ ((jsMapOfEntries
      (ds.map (fun x => (x.mimeType, x.data)))).map Prod.fst) →
      m ∈ ds.map Dataset.mimeType := by
    intro m hm
    rw [mem_map_fst_jsMapOfEntries, List.map_map] at hm
    exact hm
  have hnone : alookup (s.reachableFrom fuel ((jsMapOfEntries
      (ds.map (fun x => (x.mimeType, x.data)))).map Prod.fst)) target =
      none := by
    apply reachable_of_unreachable
    rintro ⟨n, hp⟩
    exact hnr ⟨n, isPath_congr_starts _ hkeys hp⟩
  rw [convert_single_url fuel s ds target url hurls, hnone]
  rfl

theorem claim5_witness :
    Ex.regy1.convert 4 [Ex.dsA] "nonexistent/type" = ⟨[], none⟩ := by
  apply claim5 String String inferInstance 4 Ex.regy1 [Ex.dsA]
    "nonexistent/type" Ex.urlA (by decide)
  rintro ⟨n, hp⟩
  rcases isPath_cases hp with h | ⟨m, f, hm⟩
  · have h2 : ("nonexistent/type" : String) ∈
        List.map Dataset.mimeType [Ex.dsA] := h
    revert h2
    decide
  · rcases mem_foldl_composeConverters _ _ m _ f hm with h1 | ⟨c, hc, ht⟩
    · simp [emptyConverter] at h1
    · have hc2 : c = staticConverter "mime/A" "mime/B" Ex.tfAB ∨
          c = staticConverter "mime/B" "mime/C" Ex.tfBC ∨
          c = staticConverter "mime/A" "mime/C" Ex.tfAC := by
        simpa [Ex.regy1, Ex.regAB, Ex.regBC, Ex.regAC] using hc
      rcases hc2 with rfl | rfl | rfl
      · exact absurd (mem_map_fst_staticConverter ht) (by decide)
      · exact absurd (mem_map_fst_staticConverter ht) (by decide)
      · exact absurd (mem_map_fst_staticConverter ht) (by decide)

/-- Claim C2 (counterexample to the claim as stated): in the 3-hop chain
A→B, B→C (rejecting), C→D, converting the A dataset to target D yields two
elements (the source A dataset and the hop-1 B dataset) before the sequence
fails — not exactly one produced element. -/
theorem claim2_counterexample :
    Ex.regy2.convert 5 [Ex.dsA] "mime/D" =
      ⟨[some Ex.dsA, some Ex.dsB], some (ConvErr.hop "boom")⟩ ∧
    (Ex.regy2.convert 5 [Ex.dsA] "mime/D").yielded.length ≠ 1 :=
  ⟨by decide, by decide⟩

/-- Claim C2 (amended): if the transform of some hop rejects, the sequence fails
at that point with that error, nothing is yielded for that hop or any later
hop (whatever entries follow), and the already-yielded elements are exactly
the prefix's; for the spec's instance, the 3-hop chain failing at hop 2
yields exactly two produced elements — the source dataset and the hop-1
result — before the sequence fails, and hop 3's transform is never invoked
(the outcome is the same for every transform in hop 3's place). -/
theorem claim2 :
    (∀ (α ε : Type) (inst : Inhabited α) (source : List (Dataset α))
        (url : URL) (pre : List (PathEntry α ε)) (datas : List (String × α))
        (im : String) (f : Tf α ε) (rm : String)
        (post : List (PathEntry α ε)) (e : ε),
      (@runPath α ε inst source url datas pre).error = none →
      f ((alookup (@datasAfter α ε inst datas pre) im).getD inst.default) =
        Except.error e →
      @runPath α ε inst source url datas
          (pre ++ PathEntry.hop im f rm :: post) =
        ⟨(@runPath α ε inst source url datas pre).yielded,
         some (ConvErr.hop e)⟩) ∧
    Ex.regy2.convert 5 [Ex.dsA] "mime/D" =
      ⟨[some Ex.dsA, some Ex.dsB], some (ConvErr.hop "boom")⟩ ∧
    (∀ g : Tf String String,
      (ConverterRegistry.mk [Ex.regAB, Ex.regBCfail,
          ⟨4, staticConverter "mime/C" "mime/D" g⟩] :
        ConverterRegistry String String).convert 5 [Ex.dsA] "mime/D" =
        ⟨[some Ex.dsA, some Ex.dsB], some (ConvErr.hop "boom")⟩) := by
  refine ⟨?_, by decide, ?_⟩
  · intro α ε inst source url pre datas im f rm post e h1 h2
    exact runPath_fail_at source url pre datas im f rm post e h1 h2
  · intro g
    rfl

theorem claim2_witness :
    runPath ([] : List (Dataset String)) Ex.urlA ([] : List (String × String))
      [PathEntry.hop "mime/X" Ex.tfFail0 "mime/Y"] =
      ⟨[], some (ConvErr.hop "e0")⟩ :=
  claim2.1 String String inferInstance [] Ex.urlA [] [] "mime/X" Ex.tfFail0
    "mime/Y" [] "e0" rfl rfl

/-- Claim C8: evaluation of `resolverURLConverter` at the failing input of the
claim.  On a recognized "resolve" wrapper mimetype the matcher reads
`url.protocol`, but `singleConverter` invokes it with the mimetype only, so
`url` is `undefined` and a `TypeError` is thrown instead of producing the
edge the claim describes; on an unrecognized mimetype it returns no edge
and no error, as the claim says. -/
theorem claim8 :
    extractResolveMimeType (resolveBaseMimeType ++ "text/csv") =
      some "text/csv" ∧
    resolverURLConverterResult (resolveBaseMimeType ++ "text/csv") =
      Except.error JSError.typeError ∧
    (∀ m : String, extractResolveMimeType m = none →
      resolverURLConverterResult m = Except.ok none) := by
  have hext : extractResolveMimeType (resolveBaseMimeType ++ "text/csv") =
      some "text/csv" := by decide
  refine ⟨hext, ?_, ?_⟩
  · unfold resolverURLConverterResult resolverURLFn
    rw [hext]
  · intro m hm
    unfold resolverURLConverterResult resolverURLFn
    rw [hm]

theorem claim8_witness :
    extractResolveMimeType "text/plain" = none ∧
    resolverURLConverterResult "text/plain" = Except.ok none :=
  ⟨by decide, claim8.2.2 "text/plain" (by decide)⟩

/-- Claim C9 (counterexample to the claim as stated): for a converter that is
already registered, register-then-dispose removes it outright, so
`listTargetMimeTypes` differs from its value before the pair. -/
theorem claim9_counterexample :
    ConverterRegistry.listTargetMimeTypes 2
        ((ConverterRegistry.registerThenDispose
          (⟨[Ex.regAB]⟩ : ConverterRegistry String String) Ex.regAB).1)
        ["mime/A"] ≠
      ConverterRegistry.listTargetMimeTypes 2
        (⟨[Ex.regAB]⟩ : ConverterRegistry String String) ["mime/A"] := by
  decide

/-- Claim C9 (amended): for every converter `c` not already registered (no
converter with the same reference present), `register(c)` followed by
disposing the returned handle restores the registry state — in particular
`listTargetMimeTypes` is identical to before for every source set — and the
`convertersChanged` trace of the pair is exactly `added` then `removed`,
both carrying `c`. -/
theorem claim9 : ∀ (α ε : Type) (s : ConverterRegistry α ε)
    (c : RegConverter α ε),
    (∀ r ∈ s.converters, r.ref ≠ c.ref) →
    ((s.registerThenDispose c).1 = s ∧
     (∀ (fuel : Nat) (S : List String),
        ConverterRegistry.listTargetMimeTypes fuel
          (s.registerThenDispose c).1 S =
        ConverterRegistry.listTargetMimeTypes fuel s S) ∧
     (s.registerThenDispose c).2 =
       [⟨c, ChangeType.added⟩, ⟨c, ChangeType.removed⟩]) := by
  intro α ε s c h
  have hany : s.converters.any (fun r => r.ref = c.ref) = false := by
    rw [List.any_eq_false]
    intro r hr
    simpa using h r hr
  have hreg : s.register c =
      (⟨s.converters ++ [c]⟩, [⟨c, ChangeType.added⟩]) := by
    simp [ConverterRegistry.register, hany]
  have hfil : (s.converters ++ [c]).filter (fun r => r.ref ≠ c.ref) =
      s.converters := by
    rw [List.filter_append]
    have h1 : s.converters.filter (fun r => r.ref ≠ c.ref) = s.converters := by
      rw [List.filter_eq_self]
      intro a ha
      simpa using h a ha
    have h2 : [c].filter (fun r => r.ref ≠ c.ref) = [] := by
      simp
    rw [h1, h2, List.append_nil]
  have hrtd : s.registerThenDispose c =
      (⟨(s.converters ++ [c]).filter (fun r => r.ref ≠ c.ref)⟩,
       [⟨c, ChangeType.added⟩, ⟨c, ChangeType.removed⟩]) := by
    unfold ConverterRegistry.registerThenDispose
    rw [hreg]
    rfl
  rw [hrtd, hfil]
  have hs : (⟨s.converters⟩ : ConverterRegistry α ε) = s := rfl
  exact ⟨hs, fun fuel S => by rw [hs], rfl⟩

theorem claim9_witness :
    ConverterRegistry.listTargetMimeTypes 2
        (((⟨[Ex.regAB]⟩ : ConverterRegistry String String).registerThenDispose
          Ex.regBC).1) ["mime/A"] =
      ConverterRegistry.listTargetMimeTypes 2
        (⟨[Ex.regAB]⟩ : ConverterRegistry String String) ["mime/A"] ∧
    ((⟨[Ex.regAB]⟩ : ConverterRegistry String String).registerThenDispose
        Ex.regBC).2 =
      [⟨Ex.regBC, ChangeType.added⟩, ⟨Ex.regBC, ChangeType.removed⟩] := by
  have h := claim9 String String ⟨[Ex.regAB]⟩ Ex.regBC (by decide)
  exact ⟨h.2.1 2 ["mime/A"], h.2.2⟩

/-- Claim C10: `convert` raises the inconsistent-source error exactly when the set
of URL objects collected from the input datasets (compared by object
identity) does not have exactly one element; in particular an empty input
raises it, and so do two datasets whose URLs agree textually but are
distinct objects. -/
theorem claim10 :
    (∀ (α ε : Type) (inst : Inhabited α) (fuel : Nat)
        (s : ConverterRegistry α ε) (ds : List (Dataset α)) (target : String),
      @ConverterRegistry.convert α ε inst fuel s ds target =
          ⟨[], some ConvErr.inconsistentSource⟩ ↔
        (jsSetOf (ds.map Dataset.url)).length ≠ 1) ∧
    ConverterRegistry.convert 1 (⟨[]⟩ : ConverterRegistry String String)
      [] "mime/A" = ⟨[], some ConvErr.inconsistentSource⟩ ∧
    Ex.regy1.convert 4 [Ex.dsA, Ex.dsAcopy] "mime/A" =
      ⟨[], some ConvErr.inconsistentSource⟩ := by
  refine ⟨?_, by decide, by decide⟩
  intro α ε inst fuel s ds target
  constructor
  · intro heq
    by_contra hlen
    rcases List.length_eq_one.mp hlen with ⟨u, hu⟩
    rw [convert_single_url fuel s ds target u hu] at heq
    exact runPath_error_ne_inconsistent ds u _ _ (congrArg ConvOut.error heq)
  · intro hlen
    exact convert_not_single_url fuel s ds target hlen

theorem claim10_witness :
    Ex.regy1.convert 4 ([] : List (Dataset String)) "mime/A" =
      ⟨[], some ConvErr.inconsistentSource⟩ :=
  (claim10.1 String String inferInstance 4 Ex.regy1 [] "mime/A").mpr
    (by decide)

end DataBus
